import Mathlib

/-!
Verification development for `files_merger` (src/main.go): a utility that
recursively walks directory trees, selects files by extension and
filename-pattern filters while pruning ignored directories, deduplicates
paths, and streams framed (header + content) records into one output sink.

The Go source is shallowly embedded below: pure helpers (`checkExt`,
`isIgnoredDir`, `prepareExtensions`, `removeDuplicates`) become Lean
functions; the `filepath.WalkDir` traversal in `parse` becomes a
structurally recursive walk over a filesystem tree with explicit threading
of the emitted-record list and the `pathCache` dedup set.
-/

/-- `filepath.Join` on clean component lists: components joined by "/". -/
def joinPath (comps : List String) : String :=
  String.intercalate "/" comps

/-- `strings.Split` for a one-character separator, character by character:
`acc` holds the characters of the current field in reverse. -/
def splitCharAux (sep : Char) : List Char → List Char → List String
  | [], acc => [String.mk acc.reverse]
  | c :: cs, acc =>
    if c = sep then String.mk acc.reverse :: splitCharAux sep cs []
    else splitCharAux sep cs (c :: acc)

/-- `strings.Split(s, sep)` for a one-character separator; splitting the
empty string yields one empty field, never an empty list. -/
def splitChar (sep : Char) (s : String) : List String :=
  splitCharAux sep s.data []

/-- Path components of a path string (inverse view used to state the
pruning invariant about path components). -/
def splitPath (p : String) : List String :=
  splitChar '/' p

/-- `unicode.IsSpace` restricted to the ASCII range, which is all
`strings.TrimSpace` needs for ASCII flag values. -/
def isGoSpace (c : Char) : Bool :=
  c = ' ' || c = '\t' || c = '\n' || c = '\x0b' || c = '\x0c' || c = '\r'

/-- `strings.TrimSpace`: drop whitespace from both ends. -/
def trimSpace (s : String) : String :=
  String.mk (((s.data.dropWhile isGoSpace).reverse.dropWhile isGoSpace).reverse)

/-- Right-to-left scan of `filepath.Ext`: the reversed characters of the
name are consumed until a '.' (return the dot plus what followed it) or a
path separator (no extension) is found.  `acc` holds the characters already
passed over, in their original order. -/
def goExtAux : List Char → List Char → String
  | [], _ => ""
  | c :: rest, acc =>
    if c = '.' then String.mk ('.' :: acc)
    else if c = '/' then ""
    else goExtAux rest (c :: acc)

/-- `filepath.Ext(name)` from the Go standard library: the suffix starting
at the final dot in the final path element; empty when there is no dot. -/
def goExt (name : String) : String :=
  goExtAux name.data.reverse []

/-- `checkExt` (src/main.go lines 141-149): the extension of the entry is
compared for equality against each allowed extension in turn. -/
def checkExt (name : String) (allowedExts : List String) : Bool :=
  allowedExts.contains (goExt name)

/-- `isIgnoredDir` (src/main.go lines 150-161): false for non-directories,
otherwise the entry name is compared for equality against each ignored
directory name. -/
def isIgnoredDir (isDir : Bool) (name : String) (ignoredDirs : List String) : Bool :=
  if !isDir then false
  else ignoredDirs.contains name

/-- Loop body of `removeDuplicates` (src/main.go lines 226-236): `seen`
models the `allKeys` map; the first occurrence of each element is kept, in
order. -/
def removeDupAux (seen : List String) : List String → List String
  | [] => []
  | x :: xs =>
    if seen.contains x then removeDupAux seen xs
    else x :: removeDupAux (x :: seen) xs

/-- `removeDuplicates` (src/main.go lines 226-236), at type `[]string`. -/
def removeDuplicates (sliceList : List String) : List String :=
  removeDupAux [] sliceList

/-- `prepareExtensions` (src/main.go lines 109-122): split the flag value
on commas, remove duplicates among the raw tokens, then rewrite each token
to `"." + strings.TrimSpace(token)`.  (The `len == 0` error branch of the
Go code is unreachable: splitting any string yields at least one token.) -/
def prepareExtensions (extensions : String) : List String :=
  let extSplitted := splitChar ',' extensions
  let extSplitted := removeDuplicates extSplitted
  extSplitted.map (fun e => "." ++ trimSpace e)

mutual
/-- A filesystem tree: regular files carry `some data` when `os.ReadFile`
would succeed and `none` when it would fail; directories carry their
entries in listing order. -/
inductive FS where
  | file (data : Option String)
  | dir (entries : Entries)

/-- Directory entries in listing order. -/
inductive Entries where
  | nil
  | cons (name : String) (t : FS) (rest : Entries)
end

/-- Run configuration handed to `parse`: prepared allowed extensions,
prepared ignored directory names, the compiled ignore-filename regexp
(abstracted as its matching predicate), and the comment symbol. -/
structure Config where
  exts : List String
  ignoredDirs : List String
  ignoreRegex : String → Bool
  comment : String

/-- One framed record: the traversal-yielded path written on the header
line and the file content read by `os.ReadFile`. -/
structure Rec where
  path : String
  data : String
deriving DecidableEq

/-- The bytes of one record as built in the local `bytes.Buffer` of `parse`:
first `fmt.Fprintf(&buf, ...)` writes the comment symbol, a space, the path
and a newline; the second appends the content and a newline. -/
def Rec.bytes (commentSymbol : String) (r : Rec) : String :=
  (commentSymbol ++ " " ++ r.path ++ "\n") ++ (r.data ++ "\n")

/-- Mutable state threaded through a run: the records sent on `outputCh`
so far, in send order, and the keys of the global `pathCache` map. -/
structure St where
  records : List Rec
  cache : List String
deriving DecidableEq

/-- Empty initial state: nothing sent, `pathCache` empty. -/
def initSt : St := { records := [], cache := [] }

/-- Result of walking one subtree: `ok` when the walk of the subtree
completed, `fail` when a read error aborted the rest of the walk of this root.
Either way the state records what was already sent on the channel. -/
inductive WalkRes where
  | ok (st : St)
  | fail (st : St)
deriving DecidableEq

/-- The state carried by a walk result. -/
def WalkRes.st : WalkRes → St
  | .ok s => s
  | .fail s => s

/-- The WalkDir callback in `parse` (src/main.go lines 167-217) on a
non-directory entry reached without a walk error: skip when the ignore
regexp matches the base name, skip when the extension is not allowed, skip
when `pathCache[path]` is set; otherwise write the header line into the
local buffer, read the file — a read failure aborts the walk and the
buffer is discarded, so nothing reaches the channel — then send the framed
record and set `pathCache[path] = true`. -/
def fileStep (cfg : Config) (p : String) (name : String) (data : Option String)
    (st : St) : WalkRes :=
  if cfg.ignoreRegex name then .ok st
  else if !(checkExt name cfg.exts) then .ok st
  else if st.cache.contains p then .ok st
  else
    match data with
    | none => .fail st
    | some content =>
      .ok { records := st.records ++ [{ path := p, data := content }],
            cache := st.cache ++ [p] }

mutual
/-- `filepath.WalkDir` driving the callback of `parse`: `walkEntry` visits
the entry named `name` below the directory components `dirComps`; a
directory whose name matches an ignored name returns `filepath.SkipDir`, so
its subtree is never descended into; otherwise the entries are visited in
listing order, and a failure aborts the remainder of the walk. -/
def walkEntry (cfg : Config) (dirComps : List String) (name : String) (t : FS)
    (st : St) : WalkRes :=
  match t with
  | .file data => fileStep cfg (joinPath (dirComps ++ [name])) name data st
  | .dir es =>
    if isIgnoredDir true name cfg.ignoredDirs then .ok st
    else walkEntries cfg (dirComps ++ [name]) es st

def walkEntries (cfg : Config) (dirComps : List String) (es : Entries)
    (st : St) : WalkRes :=
  match es with
  | .nil => .ok st
  | .cons n t rest =>
    match walkEntry cfg dirComps n t st with
    | .ok st' => walkEntries cfg dirComps rest st'
    | .fail st' => .fail st'
end

/-- One input root as handed to `parse`: the supplied path is split into
the leading directory components `dir` and the final component `name`
(the base name reported by the DirEntry obtained from `os.Lstat`); `fs` is `none` when
the root path does not exist, in which case `WalkDir` invokes the callback
with a nil `DirEntry` and `err` set. -/
structure Root where
  dir : List String
  name : String
  fs : Option FS

/-- `parse` on one root (src/main.go lines 164-224).  When the root does
not exist, `WalkDir` calls the callback with a nil `DirEntry`; the callback
runs `isIgnoredDir(entry, ...)` before looking at `err`, and
`entry.IsDir()` on the nil interface panics — modelled as `none`, the
crash of the whole process.  Otherwise a completed or aborted walk both
return the reached state: `run` prints a per-root error and continues. -/
def parseRoot (cfg : Config) (r : Root) (st : St) : Option St :=
  match r.fs with
  | none => none
  | some t =>
    match walkEntry cfg r.dir r.name t st with
    | .ok st' => some st'
    | .fail st' => some st'

/-- The root loop of `run` (src/main.go lines 93-98): roots are processed
sequentially in argument order by the single producer goroutine; a per-root
`parse` error is printed and the loop continues; a panic kills the run. -/
def runRoots (cfg : Config) (roots : List Root) (st : St) : Option St :=
  match roots with
  | [] => some st
  | r :: rest =>
    match parseRoot cfg r st with
    | none => none
    | some st' => runRoots cfg rest st'

/-- The bytes the sink appends to the output file: `receiveAndWrite`
(src/main.go lines 75-83) drains the channel in receive order and performs
one `file.Write` per record, so the output is the concatenation of the
record frames in send order; `none` when the run panicked. -/
def runOutput (cfg : Config) (roots : List Root) : Option String :=
  (runRoots cfg roots initSt).map
    (fun st => String.join (st.records.map (Rec.bytes cfg.comment)))

/-- The check-and-mark of the dedup registry around one emission: the lookup
`pathCache[path]` (src/main.go line 190) and, when emission proceeds, the
assignment `pathCache[path] = true` (line 214). -/
def markIfNew (cache : List String) (p : String) : Bool × List String :=
  if cache.contains p then (false, cache) else (true, cache ++ [p])

/-- The sequence of check-and-mark results over the lifetime of a run that
emits at the given sequence of paths. -/
def markRun (cache : List String) : List String → List Bool
  | [] => []
  | p :: ps => (markIfNew cache p).1 :: markRun (markIfNew cache p).2 ps

/-- The candidacy decision of the callback in `parse` (src/main.go lines
177-188), in the order the code performs it: directories are never
candidates, then the ignore regexp is tested against the base name, then
the extension. -/
def emitCandidate (cfg : Config) (name : String) (isDir : Bool) : Bool :=
  if isDir then false
  else if cfg.ignoreRegex name then false
  else checkExt name cfg.exts

mutual
/-- Whether every file of the tree is readable (`os.ReadFile` succeeds). -/
def allReadable : FS → Bool
  | .file data => data.isSome
  | .dir es => entriesReadable es

/-- Whether every file below each entry is readable. -/
def entriesReadable : Entries → Bool
  | .nil => true
  | .cons _ t rest => allReadable t && entriesReadable rest
end

/-- Whether a root exists and all of its files are readable. -/
def rootOk (r : Root) : Bool :=
  match r.fs with
  | none => false
  | some t => allReadable t

mutual
/-- Spec-side selection predicate, following the words of the spec: a file qualifies
iff its extension is in the allowed set and the ignore filename pattern
does not match its base name; a subtree below a pruned directory (one
whose name is in the ignored-directory set) contributes nothing.  The
qualifying paths are listed in depth-first listing order. -/
def qualifyingEntry (cfg : Config) (dirComps : List String) (name : String) :
    FS → List String
  | .file _ =>
    if !cfg.ignoreRegex name && checkExt name cfg.exts
    then [joinPath (dirComps ++ [name])] else []
  | .dir es =>
    if cfg.ignoredDirs.contains name then []
    else qualifyingEntries cfg (dirComps ++ [name]) es

/-- Spec-side qualifying paths of a list of directory entries. -/
def qualifyingEntries (cfg : Config) (dirComps : List String) :
    Entries → List String
  | .nil => []
  | .cons n t rest =>
    qualifyingEntry cfg dirComps n t ++ qualifyingEntries cfg dirComps rest
end

/-- The qualifying paths contributed by one root (none when the root does
not exist). -/
def rootQual (cfg : Config) (r : Root) : List String :=
  match r.fs with
  | none => []
  | some t => qualifyingEntry cfg r.dir r.name t

/-- Capacity of `outputCh`: `make(chan []byte, 4)` (src/main.go line 73). -/
def channelCapacity : Nat := 4

/-- How a run ends once the write of the sink has failed. -/
inductive RunEnd where
  | errorReported
  | deadlocked
deriving DecidableEq

/-- Number of channel sends the producer can complete once the consumer
has stopped receiving for good: sends succeed while the buffer has room,
i.e. up to `received + channelCapacity` in total; any further send blocks
forever because nothing drains the buffer. -/
def sendsCompleted (total received : Nat) : Nat :=
  min total (received + channelCapacity)

/-- `run` (src/main.go lines 73-106) after `file.Write` fails on the
record with 0-based index `f` out of `total`: `receiveAndWrite` returns
the write error and stops ranging over the channel, having received
`f + 1` records.  Nothing signals the producer, which keeps traversing and
sending.  If every remaining record fits into the channel buffer, the
producer reaches `close(outputCh)` and `wg.Wait()` returns the write
error; otherwise the producer blocks forever in a channel send and the run
never terminates. -/
def runEndAfterWriteFailure (total f : Nat) : RunEnd :=
  if sendsCompleted total (f + 1) < total then .deadlocked else .errorReported

/-- The path shape of every emitted record of a walk rooted at the
directory components `dc`: the header path is `dc` extended by at least
one component, and every extended component except the last (the base
name of the file itself) avoids the ignored-directory set.  Components of `dc`
itself — the part of the supplied root path above its base name — are not
constrained. -/
def pathShapeOk (cfg : Config) (dc : List String) (r : Rec) : Prop :=
  ∃ comps, comps ≠ [] ∧ r.path = joinPath (dc ++ comps) ∧
    ∀ c ∈ comps.dropLast, cfg.ignoredDirs.contains c = false

/-- Dedup state invariant: the `pathCache` keys are distinct, the emitted
header paths are distinct, and every emitted header path is cached. -/
def StInv (st : St) : Prop :=
  st.cache.Nodup ∧ (st.records.map Rec.path).Nodup ∧
    ∀ p ∈ st.records.map Rec.path, p ∈ st.cache

mutual
theorem walkEntry_shape : ∀ (cfg : Config) (dc : List String) (name : String)
    (t : FS) (st : St),
    ∃ new, (walkEntry cfg dc name t st).st.records = st.records ++ new ∧
      ∀ r ∈ new, pathShapeOk cfg dc r
  | cfg, dc, name, .file data, st => by
    refine ?_
    simp only [walkEntry, fileStep]
    split_ifs with h1 h2 h3
    · exact ⟨[], by simp [WalkRes.st], by simp⟩
    · exact ⟨[], by simp [WalkRes.st], by simp⟩
    · exact ⟨[], by simp [WalkRes.st], by simp⟩
    · cases data with
      | none => exact ⟨[], by simp [WalkRes.st], by simp⟩
      | some content =>
        refine ⟨[{ path := joinPath (dc ++ [name]), data := content }], by simp [WalkRes.st], ?_⟩
        intro r hr
        simp only [List.mem_singleton] at hr
        subst hr
        exact ⟨[name], by simp, rfl, by simp⟩
  | cfg, dc, name, .dir es, st => by
    simp only [walkEntry]
    split_ifs with h1
    · exact ⟨[], by simp [WalkRes.st], by simp⟩
    · obtain ⟨new, hrec, hshape⟩ := walkEntries_shape cfg (dc ++ [name]) es st
      refine ⟨new, hrec, ?_⟩
      intro r hr
      obtain ⟨comps, hne, hpath, hcomps⟩ := hshape r hr
      refine ⟨name :: comps, by simp, by simpa [List.append_assoc] using hpath, ?_⟩
      intro c hc
      rw [List.dropLast_cons_of_ne_nil hne] at hc
      rcases List.mem_cons.mp hc with rfl | hc
      · 
        simp only [isIgnoredDir, Bool.not_true, if_false] at h1
        simpa using h1
      · exact hcomps c hc

theorem walkEntries_shape : ∀ (cfg : Config) (dc : List String) (es : Entries) (st : St),
    ∃ new, (walkEntries cfg dc es st).st.records = st.records ++ new ∧
      ∀ r ∈ new, pathShapeOk cfg dc r
  | cfg, dc, .nil, st => ⟨[], by simp [walkEntries, WalkRes.st], by simp⟩
  | cfg, dc, .cons n t rest, st => by
    simp only [walkEntries]
    obtain ⟨new1, h1, hs1⟩ := walkEntry_shape cfg dc n t st
    rcases hw : walkEntry cfg dc n t st with st' | st'
    · rw [hw] at h1
      simp only [WalkRes.st] at h1
      obtain ⟨new2, h2, hs2⟩ := walkEntries_shape cfg dc rest st'
      refine ⟨new1 ++ new2, ?_, ?_⟩
      · rw [h2, h1, List.append_assoc]
      · intro r hr
        rcases List.mem_append.mp hr with hr | hr
        · exact hs1 r hr
        · exact hs2 r hr
    · rw [hw] at h1
      simp only [WalkRes.st] at h1
      exact ⟨new1, by simpa [WalkRes.st] using h1, hs1⟩
end

theorem contains_false_not_mem {l : List String} {p : String}
    (h : l.contains p = false) : p ∉ l := by
  intro hm
  simp only [List.elem_eq_mem, decide_eq_false_iff_not] at h
  exact h hm

theorem fileStep_inv (cfg : Config) (p : String) (name : String)
    (data : Option String) (st : St) (h : StInv st) :
    StInv (fileStep cfg p name data st).st := by
  simp only [fileStep]
  split_ifs with h1 h2 h3
  · simpa [WalkRes.st] using h
  · simpa [WalkRes.st] using h
  · simpa [WalkRes.st] using h
  · cases data with
    | none => simpa [WalkRes.st] using h
    | some content =>
      obtain ⟨hc, hrn, hsub⟩ := h
      have hp : p ∉ st.cache := contains_false_not_mem (by simpa using h3)
      refine ⟨?_, ?_, ?_⟩
      · simp only [WalkRes.st]
        rw [List.nodup_append]
        exact ⟨hc, List.nodup_singleton p, by simpa [List.disjoint_singleton] using hp⟩
      · simp only [WalkRes.st, List.map_append, List.map_singleton]
        rw [List.nodup_append]
        refine ⟨hrn, List.nodup_singleton p, ?_⟩
        simp only [List.disjoint_singleton]
        intro hmem
        exact hp (hsub p hmem)
      · simp only [WalkRes.st, List.map_append, List.map_singleton]
        intro q hq
        rcases List.mem_append.mp hq with hq | hq
        · exact List.mem_append_left _ (hsub q hq)
        · simp only [List.mem_singleton] at hq
          subst hq
          exact List.mem_append_right _ (List.mem_singleton_self q)

mutual
theorem walkEntry_inv : ∀ (cfg : Config) (dc : List String) (name : String)
    (t : FS) (st : St), StInv st → StInv (walkEntry cfg dc name t st).st
  | cfg, dc, name, .file data, st => fun h => by
    simpa only [walkEntry] using
      fileStep_inv cfg (joinPath (dc ++ [name])) name data st h
  | cfg, dc, name, .dir es, st => fun h => by
    simp only [walkEntry]
    split_ifs with h1
    · simpa [WalkRes.st] using h
    · exact walkEntries_inv cfg (dc ++ [name]) es st h

theorem walkEntries_inv : ∀ (cfg : Config) (dc : List String) (es : Entries)
    (st : St), StInv st → StInv (walkEntries cfg dc es st).st
  | cfg, dc, .nil, st => fun h => by simpa [walkEntries, WalkRes.st] using h
  | cfg, dc, .cons n t rest, st => fun h => by
    simp only [walkEntries]
    have h1 := walkEntry_inv cfg dc n t st h
    rcases hw : walkEntry cfg dc n t st with st' | st'
    · rw [hw] at h1
      simp only [WalkRes.st] at h1
      exact walkEntries_inv cfg dc rest st' h1
    · rw [hw] at h1
      simpa [WalkRes.st] using h1
end

mutual
theorem walkEntry_qual : ∀ (cfg : Config) (dc : List String) (name : String)
    (t : FS) (st : St),
    allReadable t = true →
    (qualifyingEntry cfg dc name t).Nodup →
    (∀ p ∈ qualifyingEntry cfg dc name t, p ∉ st.cache) →
    ∃ recs, walkEntry cfg dc name t st =
        .ok { records := st.records ++ recs,
              cache := st.cache ++ qualifyingEntry cfg dc name t } ∧
      recs.map Rec.path = qualifyingEntry cfg dc name t
  | cfg, dc, name, .file data, st => fun hr _hnd hc => by
    cases hreg : cfg.ignoreRegex name with
    | true =>
      refine ⟨[], ?_, by simp [qualifyingEntry, hreg]⟩
      simp [walkEntry, fileStep, qualifyingEntry, hreg]
    | false =>
      cases hext : checkExt name cfg.exts with
      | false =>
        refine ⟨[], ?_, by simp [qualifyingEntry, hreg, hext]⟩
        simp [walkEntry, fileStep, qualifyingEntry, hreg, hext]
      | true =>
        have hq : qualifyingEntry cfg dc name (.file data) =
            [joinPath (dc ++ [name])] := by
          simp [qualifyingEntry, hreg, hext]
        have hp : joinPath (dc ++ [name]) ∉ st.cache := by
          apply hc
          rw [hq]
          exact List.mem_singleton_self _
        have hcont : st.cache.contains (joinPath (dc ++ [name])) = false := by
          simp only [List.elem_eq_mem, decide_eq_false_iff_not]
          exact hp
        cases data with
        | none => simp [allReadable] at hr
        | some content =>
          refine ⟨[{ path := joinPath (dc ++ [name]), data := content }], ?_, by simp [hq]⟩
          rw [hq]
          simp [walkEntry, fileStep, hreg, hext, hp]
  | cfg, dc, name, .dir es, st => fun hr hnd hc => by
    cases hig : cfg.ignoredDirs.contains name with
    | true =>
      have hmem : name ∈ cfg.ignoredDirs := by simpa using hig
      refine ⟨[], ?_, by simp [qualifyingEntry, hmem]⟩
      simp [walkEntry, isIgnoredDir, qualifyingEntry, hmem]
    | false =>
      have hnmem : name ∉ cfg.ignoredDirs := by simpa using hig
      have hq : qualifyingEntry cfg dc name (.dir es) =
          qualifyingEntries cfg (dc ++ [name]) es := by
        simp [qualifyingEntry, hnmem]
      rw [hq] at hnd hc ⊢
      obtain ⟨recs, hrun, hmap⟩ :=
        walkEntries_qual cfg (dc ++ [name]) es st (by simpa [allReadable] using hr) hnd hc
      refine ⟨recs, ?_, hmap⟩
      rw [← hrun]
      simp [walkEntry, isIgnoredDir, hnmem]

theorem walkEntries_qual : ∀ (cfg : Config) (dc : List String) (es : Entries)
    (st : St),
    entriesReadable es = true →
    (qualifyingEntries cfg dc es).Nodup →
    (∀ p ∈ qualifyingEntries cfg dc es, p ∉ st.cache) →
    ∃ recs, walkEntries cfg dc es st =
        .ok { records := st.records ++ recs,
              cache := st.cache ++ qualifyingEntries cfg dc es } ∧
      recs.map Rec.path = qualifyingEntries cfg dc es
  | cfg, dc, .nil, st => fun _ _ _ =>
    ⟨[], by simp [walkEntries, qualifyingEntries], by simp [qualifyingEntries]⟩
  | cfg, dc, .cons n t rest, st => fun hr hnd hc => by
    simp only [entriesReadable, Bool.and_eq_true] at hr
    simp only [qualifyingEntries] at hnd hc ⊢
    rw [List.nodup_append] at hnd
    obtain ⟨hnd1, hnd2, hdisj⟩ := hnd
    obtain ⟨recs1, hrun1, hmap1⟩ := walkEntry_qual cfg dc n t st hr.1 hnd1
      (fun p hp => hc p (List.mem_append_left _ hp))
    have hc2 : ∀ p ∈ qualifyingEntries cfg dc rest,
        p ∉ st.cache ++ qualifyingEntry cfg dc n t := by
      intro p hp hmem
      rcases List.mem_append.mp hmem with hm | hm
      · exact hc p (List.mem_append_right _ hp) hm
      · exact hdisj hm hp
    obtain ⟨recs2, hrun2, hmap2⟩ := walkEntries_qual cfg dc rest
      { records := st.records ++ recs1, cache := st.cache ++ qualifyingEntry cfg dc n t }
      hr.2 hnd2 hc2
    refine ⟨recs1 ++ recs2, ?_, by simp [hmap1, hmap2]⟩
    simp only [walkEntries, hrun1, hrun2]
    simp [List.append_assoc]
end

theorem parseRoot_eq_st (cfg : Config) (r : Root) (st : St) (t : FS)
    (ht : r.fs = some t) :
    parseRoot cfg r st = some ((walkEntry cfg r.dir r.name t st).st) := by
  simp only [parseRoot, ht]
  rcases walkEntry cfg r.dir r.name t st with st' | st'
  · simp [WalkRes.st]
  · simp [WalkRes.st]

theorem runRoots_shape : ∀ (cfg : Config) (roots : List Root) (st st' : St),
    runRoots cfg roots st = some st' →
    ∃ new, st'.records = st.records ++ new ∧
      ∀ r ∈ new, ∃ rt ∈ roots, pathShapeOk cfg rt.dir r
  | cfg, [], st, st', h => by
    simp only [runRoots, Option.some.injEq] at h
    exact ⟨[], by simp [← h], by simp⟩
  | cfg, rt :: rest, st, st', h => by
    rcases hp : parseRoot cfg rt st with _ | st1
    · simp [runRoots, hp] at h
    · simp only [runRoots, hp] at h
      have hst1 : ∃ new1, st1.records = st.records ++ new1 ∧
          ∀ r ∈ new1, pathShapeOk cfg rt.dir r := by
        rcases hfs : rt.fs with _ | t
        · simp [parseRoot, hfs] at hp
        · rw [parseRoot_eq_st cfg rt st t hfs] at hp
          obtain ⟨new1, h1, hs1⟩ := walkEntry_shape cfg rt.dir rt.name t st
          exact ⟨new1, by rw [← Option.some_inj.mp hp, h1], hs1⟩
      obtain ⟨new1, h1, hs1⟩ := hst1
      obtain ⟨new2, h2, hs2⟩ := runRoots_shape cfg rest st1 st' h
      refine ⟨new1 ++ new2, by rw [h2, h1, List.append_assoc], ?_⟩
      intro r hr
      rcases List.mem_append.mp hr with hr | hr
      · exact ⟨rt, List.mem_cons_self rt rest, hs1 r hr⟩
      · obtain ⟨rt', hrt', hshape⟩ := hs2 r hr
        exact ⟨rt', List.mem_cons_of_mem rt hrt', hshape⟩

theorem runRoots_inv : ∀ (cfg : Config) (roots : List Root) (st st' : St),
    StInv st → runRoots cfg roots st = some st' → StInv st'
  | cfg, [], st, st', hi, h => by
    simp only [runRoots, Option.some.injEq] at h
    rwa [← h]
  | cfg, rt :: rest, st, st', hi, h => by
    rcases hp : parseRoot cfg rt st with _ | st1
    · simp [runRoots, hp] at h
    · simp only [runRoots, hp] at h
      have hi1 : StInv st1 := by
        rcases hfs : rt.fs with _ | t
        · simp [parseRoot, hfs] at hp
        · rw [parseRoot_eq_st cfg rt st t hfs] at hp
          rw [← Option.some_inj.mp hp]
          exact walkEntry_inv cfg rt.dir rt.name t st hi
      exact runRoots_inv cfg rest st1 st' hi1 h

theorem runRoots_qual : ∀ (cfg : Config) (roots : List Root) (st : St),
    roots.all rootOk = true →
    ((roots.map (rootQual cfg)).flatten).Nodup →
    (∀ p ∈ (roots.map (rootQual cfg)).flatten, p ∉ st.cache) →
    ∃ recs, runRoots cfg roots st =
        some { records := st.records ++ recs,
               cache := st.cache ++ (roots.map (rootQual cfg)).flatten } ∧
      recs.map Rec.path = (roots.map (rootQual cfg)).flatten
  | cfg, [], st, _, _, _ => ⟨[], by simp [runRoots], by simp⟩
  | cfg, rt :: rest, st, hall, hnd, hc => by
    simp only [List.all_cons, Bool.and_eq_true] at hall
    simp only [List.map_cons, List.flatten_cons] at hnd hc ⊢
    rcases hfs : rt.fs with _ | t
    · simp [rootOk, hfs] at hall
    · have hread : allReadable t = true := by
        have := hall.1
        rwa [rootOk, hfs] at this
      have hq1 : rootQual cfg rt = qualifyingEntry cfg rt.dir rt.name t := by
        simp [rootQual, hfs]
      rw [hq1] at hnd hc ⊢
      rw [List.nodup_append] at hnd
      obtain ⟨hnd1, hnd2, hdisj⟩ := hnd
      obtain ⟨recs1, hw, hmap1⟩ := walkEntry_qual cfg rt.dir rt.name t st hread hnd1
        (fun p hp => hc p (List.mem_append_left _ hp))
      have hc2 : ∀ p ∈ (rest.map (rootQual cfg)).flatten,
          p ∉ st.cache ++ qualifyingEntry cfg rt.dir rt.name t := by
        intro p hp hmem
        rcases List.mem_append.mp hmem with hm | hm
        · exact hc p (List.mem_append_right _ hp) hm
        · exact hdisj hm hp
      obtain ⟨recs2, hrun2, hmap2⟩ := runRoots_qual cfg rest
        { records := st.records ++ recs1,
          cache := st.cache ++ qualifyingEntry cfg rt.dir rt.name t }
        hall.2 hnd2 hc2
      refine ⟨recs1 ++ recs2, ?_, by simp [hmap1, hmap2]⟩
      simp only [runRoots, parseRoot, hfs, hw]
      rw [hrun2]
      simp [List.append_assoc]

theorem markRun_count : ∀ (cache ps : List String) (p : String),
    ((ps.zip (markRun cache ps)).countP fun q => q.1 == p && q.2) =
      if p ∈ ps ∧ p ∉ cache then 1 else 0
  | cache, [], p => by simp [markRun]
  | cache, q :: ps, p => by
    by_cases hqm : q ∈ cache
    · have hmk : markIfNew cache q = (false, cache) := by simp [markIfNew, hqm]
      rw [markRun, hmk]
      simp only [List.zip_cons_cons, List.countP_cons, Bool.and_false,
        Bool.false_eq_true, if_false, Nat.add_zero]
      rw [markRun_count cache ps p]
      by_cases hpq : p = q
      · subst hpq
        simp [hqm]
      · have hiff : (p ∈ ps ∧ p ∉ cache) ↔ (p ∈ q :: ps ∧ p ∉ cache) := by
          constructor
          · rintro ⟨hm, hnc⟩
            exact ⟨List.mem_cons_of_mem _ hm, hnc⟩
          · rintro ⟨hm, hnc⟩
            rcases List.mem_cons.mp hm with rfl | hm
            · exact absurd hqm hnc
            · exact ⟨hm, hnc⟩
        rw [if_congr hiff rfl rfl]
    · have hmk : markIfNew cache q = (true, cache ++ [q]) := by simp [markIfNew, hqm]
      rw [markRun, hmk]
      simp only [List.zip_cons_cons, List.countP_cons, Bool.and_true]
      rw [markRun_count (cache ++ [q]) ps p]
      by_cases hpq : p = q
      · subst hpq
        have hnotin : ¬ (p ∈ ps ∧ p ∉ cache ++ [p]) := by
          rintro ⟨_, hnc⟩
          exact hnc (List.mem_append_right _ (List.mem_singleton_self p))
        rw [if_neg hnotin]
        have hcond : p ∈ p :: ps ∧ p ∉ cache := ⟨List.mem_cons_self p ps, hqm⟩
        rw [if_pos hcond]
        simp
      · have hiff : (p ∈ ps ∧ p ∉ cache ++ [q]) ↔ (p ∈ q :: ps ∧ p ∉ cache) := by
          constructor
          · rintro ⟨hm, hnc⟩
            refine ⟨List.mem_cons_of_mem _ hm, fun hmem => hnc (List.mem_append_left _ hmem)⟩
          · rintro ⟨hm, hnc⟩
            rcases List.mem_cons.mp hm with rfl | hm
            · exact absurd rfl hpq
            · refine ⟨hm, fun hmem => ?_⟩
              rcases List.mem_append.mp hmem with hmm | hmm
              · exact hnc hmm
              · simp only [List.mem_singleton] at hmm
                exact hpq hmm
        rw [if_congr hiff rfl rfl]
        have hbeq : (q == p) = false := by
          simp only [beq_eq_false_iff_ne, ne_eq]
          exact fun hqp => hpq hqp.symm
        simp [hbeq]

theorem removeDupAux_nodup : ∀ (l seen : List String),
    (removeDupAux seen l).Nodup ∧ ∀ x ∈ removeDupAux seen l, x ∉ seen
  | [], seen => ⟨List.nodup_nil, by simp [removeDupAux]⟩
  | x :: xs, seen => by
    by_cases hx : x ∈ seen
    · have hc : seen.contains x = true := by simpa using hx
      rw [removeDupAux, if_pos hc]
      exact removeDupAux_nodup xs seen
    · have hc : ¬ seen.contains x = true := by simpa using hx
      rw [removeDupAux, if_neg hc]
      obtain ⟨hnd, hnin⟩ := removeDupAux_nodup xs (x :: seen)
      refine ⟨List.nodup_cons.mpr ⟨fun hmem => ?_, hnd⟩, ?_⟩
      · exact hnin x hmem (List.mem_cons_self x seen)
      · intro y hy
        rcases List.mem_cons.mp hy with rfl | hy
        · exact hx
        · exact fun hys => hnin y hy (List.mem_cons_of_mem x hys)

theorem removeDupAux_sub : ∀ (l seen : List String) (x : String),
    x ∈ removeDupAux seen l → x ∈ l
  | [], seen, x => by simp [removeDupAux]
  | y :: ys, seen, x => by
    intro hx
    rw [removeDupAux] at hx
    split_ifs at hx with hc
    · exact List.mem_cons_of_mem y (removeDupAux_sub ys seen x hx)
    · rcases List.mem_cons.mp hx with rfl | hx
      · exact List.mem_cons_self x ys
      · exact List.mem_cons_of_mem y (removeDupAux_sub ys (y :: seen) x hx)

theorem goExtAux_skip : ∀ (l rest acc : List Char),
    (∀ c ∈ l, c ≠ '.' ∧ c ≠ '/') →
    goExtAux (l ++ rest) acc = goExtAux rest (l.reverse ++ acc)
  | [], rest, acc, _ => by simp [goExtAux]
  | c :: l, rest, acc, h => by
    have hc := h c (List.mem_cons_self c l)
    rw [List.cons_append, goExtAux, if_neg hc.1, if_neg hc.2]
    rw [goExtAux_skip l rest (c :: acc) (fun d hd => h d (List.mem_cons_of_mem c hd))]
    simp

theorem goExtAux_no_dot (l : List Char) (h : ∀ c ∈ l, c ≠ '.' ∧ c ≠ '/') :
    ∀ acc, goExtAux l acc = "" := by
  intro acc
  have := goExtAux_skip l [] acc h
  simpa [goExtAux] using this

theorem goExt_of_last_dot (s : String) (a b : List Char)
    (hs : s.data = a ++ '.' :: b) (hb : ∀ c ∈ b, c ≠ '.' ∧ c ≠ '/') :
    goExt s = String.mk ('.' :: b) := by
  rw [goExt, hs]
  rw [List.reverse_append, List.reverse_cons]
  rw [List.append_assoc]
  rw [goExtAux_skip b.reverse (['.'] ++ a.reverse) []
    (fun c hc => hb c (List.mem_reverse.mp hc))]
  simp [goExtAux]

theorem goExt_no_dot (s : String) (h : ∀ c ∈ s.data, c ≠ '.' ∧ c ≠ '/') :
    goExt s = "" := by
  rw [goExt]
  exact goExtAux_no_dot s.data.reverse (fun c hc => h c (List.mem_reverse.mp hc)) []

/-- Example run configuration: the prepared extension list for the default
flag value "go", ignored directory name ".git", the never-matching default
ignore pattern, and the default comment symbol. -/
def exampleCfg : Config :=
  { exts := [".go"], ignoredDirs := [".git"], ignoreRegex := fun _ => false,
    comment := "//" }

/-- Example tree: one qualifying file, one pruned subtree holding a file
that would otherwise qualify, and one file with a disallowed extension. -/
def exampleTree : FS :=
  .dir (.cons "a.go" (.file (some "x"))
    (.cons ".git" (.dir (.cons "b.go" (.file (some "y")) .nil))
      (.cons "c.txt" (.file (some "z")) .nil)))

/-- Example root over `exampleTree`. -/
def exampleRoot : Root := { dir := [], name := "r1", fs := some exampleTree }

/-- A second root that is itself a regular qualifying file. -/
def exampleRoot2 : Root :=
  { dir := [], name := "r2.go", fs := some (.file (some "w")) }

/-- The final state of the single-root example run. -/
def exampleEndSt : St :=
  { records := [{ path := "r1/a.go", data := "x" }], cache := ["r1/a.go"] }

/-- Claim C1: for every run over input roots with no overlapping physical
paths (formalised: the qualifying paths of the roots, concatenated, are
pairwise distinct) in which every root exists and every file is readable,
the header paths of the output are exactly the qualifying file paths —
extension in the allowed set, base name not matched by the ignore pattern,
not inside a pruned directory — each appearing exactly once: the emitted
header-path list equals the qualifying-path list. -/
theorem run_headers_eq_qualifying (cfg : Config) (roots : List Root)
    (hok : roots.all rootOk = true)
    (hnd : ((roots.map (rootQual cfg)).flatten).Nodup) :
    ∃ st, runRoots cfg roots initSt = some st ∧
      st.records.map Rec.path = (roots.map (rootQual cfg)).flatten := by
  obtain ⟨recs, hrun, hmap⟩ := runRoots_qual cfg roots initSt hok hnd
    (fun p _ => by simp [initSt])
  refine ⟨_, hrun, ?_⟩
  simp only [initSt, List.nil_append]
  exact hmap

/-- Witness for C1: a two-root run — a directory tree and a bare-file
root — in which the emitted header paths are exactly the qualifying
paths. -/
theorem run_headers_eq_qualifying_witness :
    ([exampleRoot, exampleRoot2].all rootOk = true) ∧
    ((([exampleRoot, exampleRoot2].map (rootQual exampleCfg)).flatten).Nodup) ∧
    ∃ st, runRoots exampleCfg [exampleRoot, exampleRoot2] initSt = some st ∧
      st.records.map Rec.path =
        ([exampleRoot, exampleRoot2].map (rootQual exampleCfg)).flatten :=
  ⟨by decide, by decide,
    run_headers_eq_qualifying exampleCfg [exampleRoot, exampleRoot2]
      (by decide) (by decide)⟩

/-- Claim C2: for each emitted file the bytes appended to the output are
exactly the header line — comment symbol, one space, the traversal-yielded
path, a newline — immediately followed by the raw file content immediately
followed by a single newline; consecutive records are concatenated
back-to-back with no other separator. -/
theorem output_is_framed_records (cfg : Config) (roots : List Root) (st : St)
    (h : runRoots cfg roots initSt = some st) :
    runOutput cfg roots =
      some (String.join (st.records.map
        (fun r => cfg.comment ++ " " ++ r.path ++ "\n" ++ r.data ++ "\n"))) := by
  simp only [runOutput, h, Option.map_some]
  have hfun : Rec.bytes cfg.comment =
      fun r => cfg.comment ++ " " ++ r.path ++ "\n" ++ r.data ++ "\n" := by
    funext r
    simp [Rec.bytes, String.append_assoc]
  rw [hfun]
  rfl

/-- Witness for C2: the single-record example run produces exactly the
frame of its one record. -/
theorem output_is_framed_records_witness :
    runOutput exampleCfg [exampleRoot] =
      some (String.join (([{ path := "r1/a.go", data := "x" }] : List Rec).map
        (fun r => exampleCfg.comment ++ " " ++ r.path ++ "\n" ++ r.data ++ "\n"))) :=
  output_is_framed_records exampleCfg [exampleRoot] exampleEndSt (by decide)

/-- Claim C3: the check-and-mark of the dedup registry returns true
exactly once per unique path string over the lifetime of a run — the
count of true results among the occurrences of a path in the emission
sequence is one when the path occurs at all — and false on every later
occurrence; consequently the emitted header paths of any completed run are
pairwise distinct, so even when two roots reach the same path string the
output holds at most one record for it. -/
theorem markIfNew_true_exactly_once :
    (∀ (ps : List String) (p : String),
      ((ps.zip (markRun [] ps)).countP fun q => q.1 == p && q.2) =
        if p ∈ ps then 1 else 0)
    ∧ ∀ (cfg : Config) (roots : List Root) (st : St),
        runRoots cfg roots initSt = some st →
        (st.records.map Rec.path).Nodup := by
  constructor
  · intro ps p
    rw [markRun_count [] ps p]
    by_cases hp : p ∈ ps
    · rw [if_pos ⟨hp, by simp⟩, if_pos hp]
    · rw [if_neg (by simp [hp]), if_neg hp]
  · intro cfg roots st h
    have hInv : StInv st := runRoots_inv cfg roots initSt st
      ⟨by simp [initSt], by simp [initSt], by simp [initSt]⟩ h
    exact hInv.2.1

/-- Witness for C3: a path sequence with a repeat is marked once, and the
run that reaches the same path from two identical roots emits it once. -/
theorem markIfNew_true_exactly_once_witness :
    (((["a", "b", "a"].zip (markRun [] ["a", "b", "a"])).countP
      fun q => q.1 == "a" && q.2) = if "a" ∈ ["a", "b", "a"] then 1 else 0)
    ∧ (exampleEndSt.records.map Rec.path).Nodup :=
  ⟨markIfNew_true_exactly_once.1 ["a", "b", "a"] "a",
   markIfNew_true_exactly_once.2 exampleCfg [exampleRoot, exampleRoot] _ (by decide)⟩

/-- Claim C4: a visited entry is an emission candidate iff it is not a
directory, the ignore filename pattern does not match its base name, and
its extension — the text after the last dot of the base name including
the dot, empty when there is no dot, compared exactly and case-sensitively
— is a member of the allowed-extensions set; a non-candidate file emits
nothing and leaves the state unchanged. -/
theorem emission_candidacy :
    (∀ (cfg : Config) (name : String) (d : Bool),
      emitCandidate cfg name d = true ↔
        d = false ∧ checkExt name cfg.exts = true ∧ cfg.ignoreRegex name = false)
    ∧ (∀ (name : String) (allowedExts : List String),
        checkExt name allowedExts = true ↔ goExt name ∈ allowedExts)
    ∧ (∀ s : String, (∀ c ∈ s.data, c ≠ '.' ∧ c ≠ '/') → goExt s = "")
    ∧ (∀ (s : String) (a b : List Char), s.data = a ++ '.' :: b →
        (∀ c ∈ b, c ≠ '.' ∧ c ≠ '/') → goExt s = String.mk ('.' :: b))
    ∧ ∀ (cfg : Config) (dc : List String) (name : String)
        (data : Option String) (st : St),
        emitCandidate cfg name false = false →
        walkEntry cfg dc name (.file data) st = .ok st := by
  refine ⟨?_, ?_, goExt_no_dot, goExt_of_last_dot, ?_⟩
  · intro cfg name d
    cases d with
    | true => simp [emitCandidate]
    | false =>
      cases hreg : cfg.ignoreRegex name with
      | true => simp [emitCandidate, hreg]
      | false => simp [emitCandidate, hreg]
  · intro name allowedExts
    simp [checkExt]
  · intro cfg dc name data st hcand
    simp only [emitCandidate, if_neg (by simp : ¬ false = true)] at hcand
    cases hreg : cfg.ignoreRegex name with
    | true => simp [walkEntry, fileStep, hreg]
    | false =>
      rw [if_neg (by simp [hreg])] at hcand
      simp [walkEntry, fileStep, hreg, hcand]

/-- Witness for C4: candidacy of a concrete name, the extension of
"main.go", and the skipping of a file with a disallowed extension. -/
theorem emission_candidacy_witness :
    (emitCandidate exampleCfg "main.go" false = true ↔
      false = false ∧ checkExt "main.go" exampleCfg.exts = true ∧
        exampleCfg.ignoreRegex "main.go" = false)
    ∧ goExt "main.go" = String.mk ('.' :: ['g', 'o'])
    ∧ walkEntry exampleCfg [] "nope.txt" (.file (some "x")) initSt = .ok initSt :=
  ⟨emission_candidacy.1 exampleCfg "main.go" false,
   emission_candidacy.2.2.2.1 "main.go" ['m', 'a', 'i', 'n'] ['g', 'o']
     (by decide) (by decide),
   (emission_candidacy.2.2.2.2) exampleCfg [] "nope.txt" (some "x") initSt (by decide)⟩

/-- A root whose supplied path carries an ignored name above its base
name: the path handed to `parse` is ".git/sub". -/
def prunedNameRoot : Root :=
  { dir := [".git"], name := "sub",
    fs := some (.dir (.cons "f.go" (.file (some "x")) .nil)) }

/-- Claim C5 counterexample: with ".git" in the ignored set and the root
supplied as ".git/sub", the run emits a record whose header path
".git/sub/f.go" contains the ignored name ".git" as a path component —
the walk never checks components of the supplied root path above its base
name. -/
theorem pruned_component_counterexample :
    ∃ st, runRoots exampleCfg [prunedNameRoot] initSt = some st ∧
      ∃ r ∈ st.records, ∃ d ∈ exampleCfg.ignoredDirs, d ∈ splitPath r.path := by
  refine ⟨{ records := [{ path := ".git/sub/f.go", data := "x" }],
            cache := [".git/sub/f.go"] }, by decide, ?_⟩
  exact ⟨{ path := ".git/sub/f.go", data := "x" }, by decide,
    ".git", by decide, by decide⟩

/-- Claim C5 amended: every emitted header path extends the directory
prefix of the supplied root path by one or more components of which none
but the last (the base name of the file itself) is in the
ignored-directory set — so no ignored name occurs as a directory component
at or below the walk root, while components of the root path above its
base name are not checked; and a visited directory whose name matches an
ignored name is skipped whole: its walk returns at once with nothing
emitted and nothing beneath it visited. -/
theorem pruned_below_root (cfg : Config) (roots : List Root) (st : St)
    (h : runRoots cfg roots initSt = some st) :
    (∀ r ∈ st.records, ∃ rt ∈ roots, pathShapeOk cfg rt.dir r)
    ∧ ∀ (dc : List String) (name : String) (es : Entries) (st' : St),
        name ∈ cfg.ignoredDirs →
        walkEntry cfg dc name (.dir es) st' = .ok st' := by
  constructor
  · obtain ⟨new, hrec, hshape⟩ := runRoots_shape cfg roots initSt st h
    intro r hr
    rw [hrec] at hr
    simp only [initSt, List.nil_append] at hr
    exact hshape r hr
  · intro dc name es st' hmem
    simp [walkEntry, isIgnoredDir, hmem]

/-- Witness for C5 amended: in the example run the one emitted record fits
the root shape, and an ignored directory is skipped whole. -/
theorem pruned_below_root_witness :
    (∃ rt ∈ [exampleRoot],
      pathShapeOk exampleCfg rt.dir { path := "r1/a.go", data := "x" })
    ∧ walkEntry exampleCfg [] ".git"
        (.dir (.cons "b.go" (.file (some "y")) .nil)) initSt = .ok initSt := by
  have h := pruned_below_root exampleCfg [exampleRoot] exampleEndSt (by decide)
  exact ⟨h.1 { path := "r1/a.go", data := "x" } (by decide),
    h.2 [] ".git" (.cons "b.go" (.file (some "y")) .nil) initSt (by decide)⟩

/-- Claim C6: records are delivered all-or-nothing — the output is the
concatenation of complete record frames, one write per record in receive
order, with no record split or interleaved with another — and a file
whose read fails contributes no bytes to the output, not even its header
line: the walk aborts with the state unchanged for that file. -/
theorem record_atomic_delivery :
    (∀ (cfg : Config) (roots : List Root) (st : St),
      runRoots cfg roots initSt = some st →
      runOutput cfg roots =
        some (String.join (st.records.map (Rec.bytes cfg.comment))))
    ∧ ∀ (cfg : Config) (dc : List String) (name : String) (st : St),
        walkEntry cfg dc name (.file none) st = .fail st ∨
        walkEntry cfg dc name (.file none) st = .ok st := by
  constructor
  · intro cfg roots st h
    simp [runOutput, h]
  · intro cfg dc name st
    simp only [walkEntry, fileStep]
    split_ifs
    · right; rfl
    · right; rfl
    · right; rfl
    · left; rfl

/-- Witness for C6: the example run writes exactly the join of its record
frames, and an unreadable file leaves the walk state unchanged. -/
theorem record_atomic_delivery_witness :
    runOutput exampleCfg [exampleRoot] = some (String.join
      (([{ path := "r1/a.go", data := "x" }] : List Rec).map
        (Rec.bytes exampleCfg.comment)))
    ∧ (walkEntry exampleCfg [] "bad.go" (.file none) initSt = .fail initSt ∨
       walkEntry exampleCfg [] "bad.go" (.file none) initSt = .ok initSt) :=
  ⟨record_atomic_delivery.1 exampleCfg [exampleRoot] exampleEndSt (by decide),
   record_atomic_delivery.2 exampleCfg [] "bad.go" initSt⟩

/-- A root path that does not exist: `os.Lstat` fails, and `WalkDir`
invokes the callback with a nil DirEntry and the error. -/
def missingRoot : Root := { dir := [], name := "missing", fs := none }

/-- Claim C7 (code bug): a nonexistent input root is not reported as a
single per-root failure with sibling roots still traversed — the callback
in `parse` runs `isIgnoredDir(entry, ...)` before inspecting `err`, and on
a nil DirEntry the `entry.IsDir()` call panics, crashing the whole
process: the run yields no outcome and the readable sibling root
contributes nothing. -/
theorem missing_root_panics :
    runRoots exampleCfg [missingRoot, exampleRoot2] initSt = none ∧
    runOutput exampleCfg [missingRoot, exampleRoot2] = none := by decide

/-- Six qualifying files, enough to overfill the four-slot channel once
the consumer has stopped draining. -/
def sinkTree : FS :=
  .dir (.cons "a.go" (.file (some "1"))
    (.cons "b.go" (.file (some "2"))
      (.cons "c.go" (.file (some "3"))
        (.cons "d.go" (.file (some "4"))
          (.cons "e.go" (.file (some "5"))
            (.cons "f.go" (.file (some "6")) .nil))))))

/-- Root over `sinkTree`. -/
def sinkRoot : Root := { dir := [], name := "src", fs := some sinkTree }

/-- The final state of the run over `sinkRoot`. -/
def sinkEndSt : St :=
  { records := [
      { path := "src/a.go", data := "1" }, { path := "src/b.go", data := "2" },
      { path := "src/c.go", data := "3" }, { path := "src/d.go", data := "4" },
      { path := "src/e.go", data := "5" }, { path := "src/f.go", data := "6" }],
    cache := ["src/a.go", "src/b.go", "src/c.go", "src/d.go", "src/e.go",
      "src/f.go"] }

/-- Claim C8 (code bug): a sink write failure does not shut the producer
down and does not terminate the run once more records remain than the
channel can buffer.  Concretely: a run that emits six records, with the
very first write failing — the consumer returns after receiving one
record, nothing signals the producer, only `1 + channelCapacity = 5` of
the six sends can complete, and the sixth send blocks forever: the run
deadlocks instead of terminating with the write error as its reported
outcome. -/
theorem write_failure_deadlocks :
    (∃ st, runRoots exampleCfg [sinkRoot] initSt = some st ∧
      st.records.length = 6) ∧
    sendsCompleted 6 1 = 5 ∧
    runEndAfterWriteFailure 6 0 = RunEnd.deadlocked := by
  refine ⟨⟨sinkEndSt, by decide, by decide⟩, by decide, by decide⟩

/-- Claim C9 counterexample: for the flag value "go, go" the prepared list
is [".go", ".go"] — duplicate removal runs on the raw comma-split tokens
before trimming, so two tokens differing only in surrounding whitespace
both survive and normalize to the same extension, which then appears
twice. -/
theorem prepared_duplicate_counterexample :
    prepareExtensions "go, go" = [".go", ".go"] ∧
    ¬ (prepareExtensions "go, go").Nodup := by decide

/-- Claim C9 amended: the prepared allowed-extensions list is the
comma-split token list with duplicate raw tokens removed (first
occurrences kept, so each distinct raw token contributes exactly once)
and each remaining token normalized to leading-dot, whitespace-trimmed
form; distinct raw tokens that trim to the same extension still yield
repeated entries. -/
theorem prepared_extensions_form (s : String) :
    prepareExtensions s =
      (removeDuplicates (splitChar ',' s)).map (fun e => "." ++ trimSpace e)
    ∧ (removeDuplicates (splitChar ',' s)).Nodup
    ∧ ∀ x ∈ prepareExtensions s, ∃ t ∈ splitChar ',' s, x = "." ++ trimSpace t := by
  refine ⟨rfl, (removeDupAux_nodup (splitChar ',' s) []).1, ?_⟩
  intro x hx
  simp only [prepareExtensions, List.mem_map] at hx
  obtain ⟨t, ht, rfl⟩ := hx
  exact ⟨t, removeDupAux_sub (splitChar ',' s) [] t ht, rfl⟩

/-- Witness for C9 amended, at the flag value "go, txt". -/
theorem prepared_extensions_form_witness :
    prepareExtensions "go, txt" =
      (removeDuplicates (splitChar ',' "go, txt")).map (fun e => "." ++ trimSpace e)
    ∧ (removeDuplicates (splitChar ',' "go, txt")).Nodup :=
  ⟨(prepared_extensions_form "go, txt").1, (prepared_extensions_form "go, txt").2.1⟩

/-- Claim C10: roots are processed sequentially in argument order by the
single producer and drained in receive order by the single consumer — the
run on `root :: rest` is exactly the parse of `root` followed by the run
on `rest`, and one parsed root only ever appends records after those
already sent — and two runs with identical inputs produce identical
output bytes. -/
theorem sequential_deterministic_output :
    (∀ (cfg : Config) (r : Root) (rest : List Root) (st : St),
      runRoots cfg (r :: rest) st =
        match parseRoot cfg r st with
        | none => none
        | some st' => runRoots cfg rest st')
    ∧ (∀ (cfg : Config) (r : Root) (st st' : St),
        parseRoot cfg r st = some st' → ∃ new, st'.records = st.records ++ new)
    ∧ ∀ (cfg : Config) (roots : List Root) (o₁ o₂ : Option String),
        runOutput cfg roots = o₁ → runOutput cfg roots = o₂ → o₁ = o₂ := by
  refine ⟨fun cfg r rest st => rfl, ?_,
    fun cfg roots o₁ o₂ h1 h2 => h1.symm.trans h2⟩
  intro cfg r st st' hp
  rcases hfs : r.fs with _ | t
  · simp [parseRoot, hfs] at hp
  · rw [parseRoot_eq_st cfg r st t hfs] at hp
    obtain ⟨new, hrec, _⟩ := walkEntry_shape cfg r.dir r.name t st
    exact ⟨new, by rw [← Option.some_inj.mp hp]; exact hrec⟩

/-- Witness for C10 at the one-root example run. -/
theorem sequential_deterministic_output_witness :
    (runRoots exampleCfg [exampleRoot] initSt =
      match parseRoot exampleCfg exampleRoot initSt with
      | none => none
      | some st' => runRoots exampleCfg [] st')
    ∧ (∃ new, exampleEndSt.records = initSt.records ++ new)
    ∧ (some "// r1/a.go\nx\n" : Option String) = some "// r1/a.go\nx\n" :=
  ⟨sequential_deterministic_output.1 exampleCfg exampleRoot [] initSt,
   sequential_deterministic_output.2.1 exampleCfg exampleRoot initSt _ (by decide),
   sequential_deterministic_output.2.2 exampleCfg [exampleRoot] _ _
     (by decide) (by decide)⟩
